import Mathlib

/-!
Verification of the study-time optimizer core (`optimizer.py`): the course
weight model, the minute-allocation post-processing, the time-block
generator, and the block-assignment post-processing.

Modelling conventions:
* Python floats are modelled as rationals (`ℚ`); calendar dates and
  datetimes as integers (`ℤ`): a date is an absolute day number, an
  instant is an absolute minute number.
* A pandas cell that the code feeds through `float(row.get(k, 0) or 0)`
  is modelled by `NumField` (absent key, `None`, empty string, or a
  number); all falsy forms coerce to `0`, as in the source.
* The `exam_date` cell is modelled by `DateField`; the external
  `dateutil` parser is black-boxed: a string input is recorded as either
  `unparseable` (the parser raises) or `parsed d` (the parser returns
  the date `d`), mirroring `_safe_parse_date`.
* The external LP/MILP solver (PuLP + CBC) is black-boxed as a function
  argument giving the variable values the code reads back; the source
  never inspects the solver status, and neither does the embedding.
-/

namespace StudyOpt

/-- A numeric cell as `optimizer.py` reads it with
`float(row.get(key, 0) or 0)`: the key may be absent, hold Python
`None`, an empty string, or a number. -/
inductive NumField where
  | missing : NumField
  | pynone : NumField
  | emptyStr : NumField
  | num : ℚ → NumField
deriving DecidableEq

/-- The coercion performed by `float(row.get(key, 0) or 0)`: every falsy
form becomes `0.0`, a number passes through. -/
def NumField.toQ : NumField → ℚ
  | .missing => 0
  | .pynone => 0
  | .emptyStr => 0
  | .num q => q

/-- The `exam_date` cell as `_safe_parse_date` can see it: absent key,
`None`, a float NaN, a string the external date parser rejects, or an
input the parser turns into the date `d` (day number). -/
inductive DateField where
  | missing : DateField
  | pynone : DateField
  | nan : DateField
  | unparseable : String → DateField
  | parsed : ℤ → DateField
deriving DecidableEq

/-- One course row of the input DataFrame, with exactly the fields
`optimizer.py` reads: `course_name`, `credits`, `difficulty`,
`category`, `exam_date`. The `category` cell is modelled after the
source's `str(...)` coercion, hence already a `String`. -/
structure Row where
  course_name : String
  credits : NumField
  difficulty : NumField
  category : String
  exam_date : DateField
deriving DecidableEq

/-- Constant `BETA_DIFFICULTY = 0.10` from `optimizer.py`. -/
def BETA_DIFFICULTY : ℚ := 1 / 10

/-- Constant `GAMMA_NEAR_EXAM = 0.80` from `optimizer.py`. -/
def GAMMA_NEAR_EXAM : ℚ := 8 / 10

/-- Constant `EXAM_HORIZON_DAYS = 21` from `optimizer.py`. -/
def EXAM_HORIZON_DAYS : ℤ := 21

/-- Python `str.strip()`: drop leading and trailing whitespace. Defined
structurally on the character list so that concrete instances compute. -/
def pyStrip (s : String) : String :=
  ⟨((s.data.dropWhile Char.isWhitespace).reverse.dropWhile Char.isWhitespace).reverse⟩

/-- Lookup `CATEGORY_COEFS.get(cat, 1.0)`: the fixed coefficient table of
`optimizer.py` (必修 1.30, 選修 1.00, 通識 0.85, 實驗 1.10), defaulting
to `1.0` for any other category string. -/
def catCoef (c : String) : ℚ :=
  if c = "必修" then 13 / 10
  else if c = "選修" then 1
  else if c = "通識" then 17 / 20
  else if c = "實驗" then 11 / 10
  else 1

/-- Function `_safe_parse_date` from `optimizer.py`: `None`, NaN, empty/blank and
unparseable strings all yield no date; otherwise the externally parsed
date is returned. -/
def safe_parse_date : DateField → Option ℤ
  | .missing => none
  | .pynone => none
  | .nan => none
  | .unparseable _ => none
  | .parsed d => some d

/-- The exam-proximity term computed inline in `compute_course_weight`
(lines 62–68 of `optimizer.py`): zero when there is no parsed exam date
or the exam has passed, else `max(0, 1 - days/21) * 0.8`. -/
def near_exam_of (ed : DateField) (today : ℤ) : ℚ :=
  match safe_parse_date ed with
  | none => 0
  | some d =>
      let days : ℤ := d - today
      if 0 ≤ days then max 0 (1 - (days : ℚ) / (EXAM_HORIZON_DAYS : ℚ)) * GAMMA_NEAR_EXAM
      else 0

/-- Function `compute_course_weight` from `optimizer.py` (with its default
parameters, the ones every caller in the repository uses):
`credits * cat_coef * (1 + beta * difficulty) + near_exam`. -/
def compute_course_weight (row : Row) (today : ℤ) : ℚ :=
  let credits := row.credits.toQ
  let difficulty := row.difficulty.toQ
  let cat_coef := catCoef (pyStrip row.category)
  let base := credits * cat_coef * (1 + BETA_DIFFICULTY * difficulty)
  base + near_exam_of row.exam_date today

/-- Insertion into a Python dict rendered on an association list: an
existing key keeps its position and gets the new value, a new key is
appended at the end (Python dicts preserve insertion order). -/
def dictInsert : List (String × ℚ) → String → ℚ → List (String × ℚ)
  | [], k, v => [(k, v)]
  | p :: m, k, v => if p.1 = k then (k, v) :: m else p :: dictInsert m k v

/-- Function `compute_weights` from `optimizer.py`: iterate the rows, writing
`weights[name] = compute_course_weight(row)` into a dict keyed by the
stripped course name; the resulting `pd.Series` keeps dict insertion
order. -/
def compute_weights (rows : List Row) (today : ℤ) : List (String × ℚ) :=
  rows.foldl (fun m row =>
    dictInsert m (pyStrip row.course_name) (compute_course_weight row today)) []

/-- Function `make_blocks` from `optimizer.py`: starting at `s`, emit block start
instants while `t + d ≤ e`. Instants and the duration are in minutes.
The source loop only terminates for a positive duration; for `d ≤ 0`
(where the Python loop would never stop) the embedding returns `[]`,
a region no theorem below relies on. -/
def make_blocks (s e d : ℤ) : List ℤ :=
  if h : 0 < d ∧ s + d ≤ e then s :: make_blocks (s + d) e d
  else []
termination_by (e - s).toNat
decreasing_by
  simp only [gt_iff_lt]
  omega

/-- Python `round()` (round half to even) on a rational, as used by
`round(minutes[c] / round_to)` in `optimize_minutes`. -/
def pyRound (q : ℚ) : ℤ :=
  let f := ⌊q⌋
  let r := q - (f : ℚ)
  if r < 1 / 2 then f
  else if 1 / 2 < r then f + 1
  else if Even f then f else f + 1

/-- One row of the DataFrame `optimize_minutes` returns: index
(course name), `minutes`, `weight`, `score`. -/
structure OutRow where
  name : String
  minutes : ℚ
  weight : ℚ
  score : ℚ
deriving DecidableEq

/-- The DataFrame `optimize_minutes` builds before its final sort
(lines 110–115 of `optimizer.py`): per course, the solver value clamped
with `max(0.0, ·)`, rounded to the nearest multiple of `round_to` when
`round_to > 1`, paired with the weight and `score = minutes * weight`.
The LP solve itself is external: `solver` is the variable assignment the
code reads back, and — exactly as in the source — no solver status is
ever inspected. The bound parameters `total`, `minPer`, `maxPer` only
shape the external LP, so the post-processing never reads them. -/
def minutesTable (rows : List Row) (_total : ℤ) (_minPer : ℤ) (_maxPer : Option ℤ)
    (roundTo : ℤ) (today : ℤ) (solver : String → ℚ) : List OutRow :=
  (compute_weights rows today).map (fun cw =>
    let m0 : ℚ := max 0 (solver cw.1)
    let m : ℚ := if 1 < roundTo then ((pyRound (m0 / (roundTo : ℚ)) : ℚ) * (roundTo : ℚ)) else m0
    { name := cw.1, minutes := m, weight := cw.2, score := m * cw.2 })

/-- Function `optimize_minutes` from `optimizer.py`: build the per-course table
and sort it by `score` descending (`sort_values("score",
ascending=False)` — a stable sort on the single key `score`; no other
sort key appears in the source). -/
def optimize_minutes (rows : List Row) (total : ℤ) (minPer : ℤ) (maxPer : Option ℤ)
    (roundTo : ℤ) (today : ℤ) (solver : String → ℚ) : List OutRow :=
  (minutesTable rows total minPer maxPer roundTo today solver).mergeSort
    (fun a b => decide (b.score ≤ a.score))

/-- The assignment list `optimize_blocks` collects before its final sort
(lines 163–168 of `optimizer.py`): for each course `c` and block index
`b` with a solver value above `0.5` (the binary variables: `x c b =
true`), the pair `(blocks[b], c)`. The binary program itself is
external: `x` is the variable assignment the code reads back. The bound
parameters only shape the external program and are never read here. -/
def blockTable (rows : List Row) (blocks : List ℤ) (_minBlocks : ℤ)
    (_maxBlocks : Option ℤ) (today : ℤ) (x : String → ℕ → Bool) : List (ℤ × String) :=
  ((compute_weights rows today).map Prod.fst).flatMap (fun c =>
    (List.range blocks.length).filterMap (fun b =>
      if x c b then some (blocks.getD b 0, c) else none))

/-- Function `optimize_blocks` from `optimizer.py`: collect the assigned pairs
and sort them by `(block_time, course_name)` ascending. -/
def optimize_blocks (rows : List Row) (blocks : List ℤ) (minBlocks : ℤ)
    (maxBlocks : Option ℤ) (today : ℤ) (x : String → ℕ → Bool) : List (ℤ × String) :=
  (blockTable rows blocks minBlocks maxBlocks today x).mergeSort
    (fun p q => decide (p.1 < q.1 ∨ (p.1 = q.1 ∧ p.2 ≤ q.2)))

/-- Spec-side exam boost, written from the spec's words: `examBoost =
γ · max(0, 1 − daysUntilExam/horizon)` only when `daysUntilExam ≥ 0`,
else 0; absent or unparseable exam date contributes 0. -/
def specExamBoost (ed : DateField) (today : ℤ) : ℚ :=
  match safe_parse_date ed with
  | some d =>
      if 0 ≤ d - today then
        GAMMA_NEAR_EXAM * max 0 (1 - ((d - today : ℤ) : ℚ) / (EXAM_HORIZON_DAYS : ℚ))
      else 0
  | none => 0

/-- Spec-side weight, written from the spec's words: `weight = credits ×
categoryCoef × (1 + β·difficulty) + examBoost` with β = 0.10. -/
def specCourseWeight (row : Row) (today : ℤ) : ℚ :=
  row.credits.toQ * catCoef (pyStrip row.category) * (1 + (1 / 10) * row.difficulty.toQ)
    + specExamBoost row.exam_date today

/-- The ordering claimed by the spec for `optimize_minutes` output:
score strictly descending, ties broken by course name ascending. -/
def scoreNameOrdered (l : List OutRow) : Prop :=
  List.Chain' (fun a b => b.score < a.score ∨ (b.score = a.score ∧ a.name ≤ b.name)) l

/-- Dict lookup on the association-list rendering of a Python dict. -/
def lookupW (m : List (String × ℚ)) (k : String) : Option ℚ :=
  (m.find? (fun p => decide (p.1 = k))).map Prod.snd

/-- The last row of `rows` whose stripped course name is `n` — the row
whose weight survives the dict overwrites in `compute_weights`. -/
def lastRowWith (rows : List Row) (n : String) : Option Row :=
  rows.reverse.find? (fun r => decide (pyStrip r.course_name = n))

/-- A numeric cell that Python treats as falsy yet is not NaN: absent,
`None`, the empty string, or the number 0. -/
def NumField.isFalsy (f : NumField) : Prop :=
  f = .missing ∨ f = .pynone ∨ f = .emptyStr ∨ f = .num 0

instance : DecidablePred NumField.isFalsy := fun f => by
  unfold NumField.isFalsy
  infer_instance

/-- Scenario C of the spec: three courses while `minPerCourse = 100`
and `totalMinutes = 200`, an unsatisfiable bound set (300 > 200). -/
def scenarioCRows : List Row :=
  [⟨"微積分", .num 3, .num 5, "必修", .missing⟩,
   ⟨"程式設計", .num 3, .num 4, "選修", .missing⟩,
   ⟨"通識課", .num 2, .num 3, "通識", .missing⟩]

/-- Three courses for the tie-break check: "Z" has weight 2, "B" and
"A" (in that row order) both have weight 1. -/
def tieRows : List Row :=
  [⟨"Z", .num 2, .num 0, "", .missing⟩,
   ⟨"B", .num 1, .num 0, "", .missing⟩,
   ⟨"A", .num 1, .num 0, "", .missing⟩]

/-- The unique optimum of the tie-break LP (`total = 180`, `minPer =
0`): the whole budget goes to the strictly heaviest course "Z". -/
def tieSolver : String → ℚ := fun c => if c = "Z" then 180 else 0

/-- A one-course snapshot for the block-assignment witness. -/
def blockDemoRows : List Row := [⟨"M", .num 3, .num 5, "必修", .missing⟩]

/-- A feasible binary readback for the witness: course "M" takes block
0 only. -/
def blockDemoX : String → ℕ → Bool := fun c b => c == "M" && b == 0

/-! ### Helper lemmas -/

theorem catCoef_pos (c : String) : 0 < catCoef c := by
  unfold catCoef
  split_ifs <;> norm_num

/-! ### C1: the weight formula -/

/-- C1: for every course row and date `today`, the weight computed by
`compute_course_weight` equals `credits × categoryCoef × (1 +
0.10·difficulty) + examBoost`, where `examBoost = 0.80 · max(0, 1 −
daysUntilExam/21)` when the parsed exam date gives `daysUntilExam ≥ 0`,
and `examBoost = 0` when the exam date is absent or `daysUntilExam <
0` — i.e. the code agrees with the spec-side formula everywhere. -/
theorem compute_course_weight_eq_spec (row : Row) (today : ℤ) :
    compute_course_weight row today = specCourseWeight row today := by
  unfold compute_course_weight specCourseWeight specExamBoost near_exam_of BETA_DIFFICULTY
  cases safe_parse_date row.exam_date with
  | none => ring
  | some d =>
      simp only
      split_ifs with h
      · ring
      · ring

/-! ### C7: monotonicity in credits and in difficulty -/

/-- C7: for rows that differ only in `credits` or only in `difficulty`
(the other fields fixed, and the fields within the ranges the data
model guarantees: difficulty ≥ 0, credits ≥ 0), `compute_course_weight`
is monotone non-decreasing in each of the two fields. -/
theorem compute_course_weight_monotone (r : Row) (today : ℤ) (c₁ c₂ d₁ d₂ : ℚ)
    (hd : 0 ≤ r.difficulty.toQ) (hc : 0 ≤ r.credits.toQ)
    (hcc : c₁ ≤ c₂) (hdd : d₁ ≤ d₂) :
    compute_course_weight { r with credits := .num c₁ } today ≤
      compute_course_weight { r with credits := .num c₂ } today ∧
    compute_course_weight { r with difficulty := .num d₁ } today ≤
      compute_course_weight { r with difficulty := .num d₂ } today := by
  have hcat := catCoef_pos (pyStrip r.category)
  have hβ : (0:ℚ) < BETA_DIFFICULTY := by norm_num [BETA_DIFFICULTY]
  have htoQ : ∀ q : ℚ, (NumField.num q).toQ = q := fun q => rfl
  unfold compute_course_weight
  simp only [htoQ]
  set K := catCoef (pyStrip r.category) with hK
  set N := near_exam_of r.exam_date today with hN
  set D := r.difficulty.toQ with hD
  set C := r.credits.toQ with hC
  constructor
  · have h1 : 0 ≤ K * (1 + BETA_DIFFICULTY * D) := by
      have : (0:ℚ) ≤ BETA_DIFFICULTY * D := mul_nonneg (le_of_lt hβ) hd
      nlinarith
    have h2 := mul_le_mul_of_nonneg_right hcc h1
    nlinarith [h2]
  · have h3 : (0:ℚ) ≤ C * K * BETA_DIFFICULTY :=
      mul_nonneg (mul_nonneg hc (le_of_lt hcat)) (le_of_lt hβ)
    have h4 := mul_le_mul_of_nonneg_left hdd h3
    nlinarith [h4]

/-- Witness for C7 at a concrete row: credits 2 ≤ 3 and difficulty
1 ≤ 4 never decrease the weight. -/
theorem compute_course_weight_monotone_witness :
    (0:ℚ) ≤ (NumField.num 5).toQ ∧ (0:ℚ) ≤ (NumField.num 3).toQ ∧ ((2:ℚ) ≤ 3) ∧ ((1:ℚ) ≤ 4) ∧
    (compute_course_weight ⟨"X", .num 2, .num 5, "必修", .missing⟩ 0 ≤
       compute_course_weight ⟨"X", .num 3, .num 5, "必修", .missing⟩ 0 ∧
     compute_course_weight ⟨"X", .num 3, .num 1, "必修", .missing⟩ 0 ≤
       compute_course_weight ⟨"X", .num 3, .num 4, "必修", .missing⟩ 0) :=
  ⟨by norm_num [NumField.toQ], by norm_num [NumField.toQ], by norm_num, by norm_num,
    compute_course_weight_monotone ⟨"X", .num 3, .num 5, "必修", .missing⟩ 0 2 3 1 4
      (by norm_num [NumField.toQ]) (by norm_num [NumField.toQ]) (by norm_num) (by norm_num)⟩

/-! ### C8: unparseable exam date behaves like no exam date -/

/-- C8: a row whose `exam_date` string the external parser rejects gets
exactly the same weight as the otherwise-identical row with no
`exam_date` at all: the unparseable date contributes zero boost and no
error is raised. -/
theorem compute_course_weight_unparseable_eq_missing
    (name cat : String) (cf df : NumField) (s : String) (today : ℤ) :
    compute_course_weight ⟨name, cf, df, cat, .unparseable s⟩ today =
      compute_course_weight ⟨name, cf, df, cat, .missing⟩ today := rfl

/-! ### C10: falsy credits coerce to zero and yield boost-only weight -/

/-- C10: a falsy (absent, `None`, empty-string, or `0`) `credits` or
`difficulty` cell is coerced to `0.0` and `compute_course_weight`
returns without raising; with falsy `credits` the whole base term
vanishes — the weight is the exam boost alone, whatever the category
and difficulty are — despite the data model's `credits > 0`
precondition. -/
theorem compute_course_weight_falsy_credits (f : NumField) (hf : f.isFalsy) :
    f.toQ = 0 ∧
    ∀ (name cat : String) (df : NumField) (ed : DateField) (today : ℤ),
      compute_course_weight ⟨name, f, df, cat, ed⟩ today = near_exam_of ed today := by
  have hv : f.toQ = 0 := by
    rcases hf with h | h | h | h <;> subst h <;> rfl
  refine ⟨hv, fun name cat df ed today => ?_⟩
  unfold compute_course_weight
  simp only [hv, zero_mul, zero_add]

/-- Witness for C10: the absent-credits cell is falsy, coerces to 0,
and a course with it gets boost-only weight. -/
theorem compute_course_weight_falsy_credits_witness :
    NumField.isFalsy .missing ∧
    ((NumField.missing.toQ = 0) ∧
      ∀ (name cat : String) (df : NumField) (ed : DateField) (today : ℤ),
        compute_course_weight ⟨name, .missing, df, cat, ed⟩ today = near_exam_of ed today) :=
  ⟨by decide, compute_course_weight_falsy_credits .missing (by decide)⟩

/-! ### C3 / C4: the block generator -/

/-- Closed form of the block loop: for a positive duration the emitted
starts are `s, s+d, …`, one for each `k < ⌊(e−s)/d⌋`. -/
theorem make_blocks_eq_range_map (s e d : ℤ) (hd : 0 < d) :
    make_blocks s e d = (List.range ((e - s) / d).toNat).map (fun k : ℕ => s + d * (k : ℤ)) := by
  rw [make_blocks.eq_def]
  split_ifs with h
  · have ih := make_blocks_eq_range_map (s + d) e d hd
    have hsub : e - (s + d) = e - s - d := by ring
    rw [hsub] at ih
    rw [ih]
    have hdiv : (e - s) / d = (e - s - d) / d + 1 := by
      have h9 := Int.add_mul_ediv_right (e - s - d) 1 (show d ≠ 0 by omega)
      have h10 : e - s - d + 1 * d = e - s := by ring
      rw [h10] at h9
      omega
    have hnn : 0 ≤ (e - s - d) / d := Int.ediv_nonneg (by omega) (by omega)
    have htn : ((e - s - d) / d + 1).toNat = ((e - s - d) / d).toNat + 1 := by omega
    rw [hdiv, htn, List.range_succ_eq_map, List.map_cons, List.map_map]
    have hzero : s + d * ((0 : ℕ) : ℤ) = s := by norm_num
    rw [hzero]
    congr 1
    apply List.map_congr_left
    intro k _
    simp only [Function.comp_apply]
    push_cast
    ring
  · have h1 : (e - s) / d < 1 := by
      rw [Int.ediv_lt_iff_lt_mul hd]
      omega
    have h2 : ((e - s) / d).toNat = 0 := by omega
    rw [h2]
    rfl
termination_by (e - s).toNat
decreasing_by omega

/-- The first element of the block loop's output, when there is one,
is the window start. -/
theorem make_blocks_head (s e d : ℤ) : ∀ y ∈ (make_blocks s e d).head?, y = s := by
  rw [make_blocks.eq_def]
  split_ifs with h
  · intro y hy
    simp only [List.head?_cons, Option.mem_def, Option.some.injEq] at hy
    omega
  · intro y hy
    simp at hy

/-- Consecutive blocks differ by exactly the block duration. -/
theorem make_blocks_chain_step (s e d : ℤ) (hd : 0 < d) :
    List.Chain' (fun a b => b = a + d) (make_blocks s e d) := by
  rw [make_blocks.eq_def]
  split_ifs with h
  · rw [List.chain'_cons']
    exact ⟨fun y hy => make_blocks_head (s + d) e d y hy,
      make_blocks_chain_step (s + d) e d hd⟩
  · exact List.chain'_nil
termination_by (e - s).toNat
decreasing_by omega

/-- The blocks are exactly the progression instants whose block still
fits in the window. -/
theorem make_blocks_mem_iff (s e d t : ℤ) (hd : 0 < d) :
    t ∈ make_blocks s e d ↔ ∃ k : ℕ, t = s + d * k ∧ t + d ≤ e := by
  rw [make_blocks_eq_range_map s e d hd]
  simp only [List.mem_map, List.mem_range]
  constructor
  · rintro ⟨k, hk, rfl⟩
    refine ⟨k, rfl, ?_⟩
    have hk' : (k : ℤ) + 1 ≤ (e - s) / d := by
      have := Int.lt_toNat.mp hk
      omega
    have := (Int.le_ediv_iff_mul_le hd).mp hk'
    nlinarith
  · rintro ⟨k, rfl, hle⟩
    refine ⟨k, ?_, rfl⟩
    have h1 : ((k : ℤ) + 1) * d ≤ e - s := by nlinarith
    have h2 : (k : ℤ) + 1 ≤ (e - s) / d := (Int.le_ediv_iff_mul_le hd).mpr h1
    exact Int.lt_toNat.mpr (by omega)

/-- C4: for a window with `windowEnd > windowStart` and a positive
block duration, `make_blocks` returns the contiguous sequence (each
start is the previous plus the duration), strictly increasing, whose
members are exactly the progression instants `windowStart + k·duration`
with `t + duration ≤ windowEnd`. -/
theorem make_blocks_valid_window (s e d : ℤ) (hd : 0 < d) (hse : s < e) :
    List.Chain' (fun a b => b = a + d) (make_blocks s e d) ∧
    List.Chain' (· < ·) (make_blocks s e d) ∧
    (∀ t : ℤ, t ∈ make_blocks s e d ↔ ∃ k : ℕ, t = s + d * k ∧ t + d ≤ e) := by
  refine ⟨make_blocks_chain_step s e d hd, ?_, fun t => make_blocks_mem_iff s e d t hd⟩
  exact (make_blocks_chain_step s e d hd).imp (fun a b hb => by omega)

/-- Witness for C4: the 19:00–20:00 window (minutes 1140–1200) with
30-minute blocks yields exactly the two blocks 19:00 and 19:30. -/
theorem make_blocks_valid_window_witness :
    (0 : ℤ) < 30 ∧ (1140 : ℤ) < 1200 ∧
    make_blocks 1140 1200 30 = [1140, 1170] ∧
    (∀ t : ℤ, t ∈ make_blocks 1140 1200 30 ↔ ∃ k : ℕ, t = 1140 + 30 * k ∧ t + 30 ≤ 1200) :=
  ⟨by norm_num, by norm_num, by simp [make_blocks],
    (make_blocks_valid_window 1140 1200 30 (by norm_num) (by norm_num)).2.2⟩

/-- C3 (divergence witness): for `windowEnd ≤ windowStart` the code
silently returns the empty sequence — no InvalidWindow error exists in
`make_blocks`; in particular `windowEnd = windowStart` yields zero
blocks, exactly the silent result the spec forbids. -/
theorem make_blocks_degenerate_window_empty (s e d : ℤ) (hd : 0 < d) (he : e ≤ s) :
    make_blocks s e d = [] := by
  rw [make_blocks.eq_def]
  rw [dif_neg (by omega : ¬(0 < d ∧ s + d ≤ e))]

/-- Witness for C3's divergence at the spec's own Scenario E: window
end equals window start (19:00–19:00), and the code returns zero
blocks, not an error. -/
theorem make_blocks_degenerate_window_empty_witness :
    (0 : ℤ) < 30 ∧ (1140 : ℤ) ≤ 1140 ∧ make_blocks 1140 1140 30 = [] :=
  ⟨by norm_num, le_refl _,
    make_blocks_degenerate_window_empty 1140 1140 30 (by norm_num) (le_refl _)⟩

/-! ### C9: duplicate course names in compute_weights -/

theorem lookupW_cons (p : String × ℚ) (m : List (String × ℚ)) (n : String) :
    lookupW (p :: m) n = if p.1 = n then some p.2 else lookupW m n := by
  unfold lookupW
  by_cases h : p.1 = n
  · rw [List.find?_cons_of_pos _ (by simp [h]), if_pos h, Option.map_some']
  · rw [List.find?_cons_of_neg _ (by simp [h]), if_neg h]

theorem lookupW_dictInsert (m : List (String × ℚ)) (k : String) (v : ℚ) (n : String) :
    lookupW (dictInsert m k v) n = if n = k then some v else lookupW m n := by
  induction m with
  | nil =>
      show lookupW [(k, v)] n = _
      rw [lookupW_cons]
      by_cases h : n = k
      · rw [if_pos h.symm, if_pos h]
      · rw [if_neg (fun hh : k = n => h hh.symm), if_neg h]
  | cons p m ih =>
      by_cases hp : p.1 = k
      · rw [show dictInsert (p :: m) k v = (k, v) :: m from by
          simp only [dictInsert, if_pos hp]]
        rw [lookupW_cons, lookupW_cons]
        by_cases h : n = k
        · rw [if_pos h.symm, if_pos h]
        · rw [if_neg (fun hh : k = n => h hh.symm), if_neg h,
            if_neg (fun hh : p.1 = n => h (hp.symm.trans hh).symm)]
      · rw [show dictInsert (p :: m) k v = p :: dictInsert m k v from by
          simp only [dictInsert, if_neg hp]]
        rw [lookupW_cons, lookupW_cons, ih]
        by_cases hpn : p.1 = n
        · have hnk : ¬ n = k := fun hh => hp (hpn.trans hh)
          rw [if_pos hpn, if_neg hnk, if_pos hpn]
        · rw [if_neg hpn, if_neg hpn]

theorem mem_keys_dictInsert (m : List (String × ℚ)) (k : String) (v : ℚ) (x : String) :
    x ∈ (dictInsert m k v).map Prod.fst ↔ x ∈ m.map Prod.fst ∨ x = k := by
  induction m with
  | nil => simp [dictInsert]
  | cons p m ih =>
      unfold dictInsert
      split_ifs with hp
      · subst hp
        simp only [List.map_cons, List.mem_cons]
        tauto
      · simp only [List.map_cons, List.mem_cons] at *
        tauto

theorem keys_nodup_dictInsert (m : List (String × ℚ)) (k : String) (v : ℚ)
    (h : (m.map Prod.fst).Nodup) : ((dictInsert m k v).map Prod.fst).Nodup := by
  induction m with
  | nil => simp [dictInsert]
  | cons p m ih =>
      unfold dictInsert
      simp only [List.map_cons, List.nodup_cons] at h
      split_ifs with hp
      · subst hp
        simpa [List.nodup_cons] using h
      · simp only [List.map_cons, List.nodup_cons]
        refine ⟨?_, ih h.2⟩
        rw [mem_keys_dictInsert]
        rintro (hmem | rfl)
        · exact h.1 hmem
        · exact hp rfl

theorem compute_weights_keys_nodup (rows : List Row) (today : ℤ) :
    ((compute_weights rows today).map Prod.fst).Nodup := by
  unfold compute_weights
  suffices h : ∀ m : List (String × ℚ), (m.map Prod.fst).Nodup →
      ((rows.foldl (fun m row =>
        dictInsert m (pyStrip row.course_name) (compute_course_weight row today)) m).map
          Prod.fst).Nodup by
    exact h [] (by simp)
  induction rows with
  | nil => intro m hm; exact hm
  | cons r rows ih =>
      intro m hm
      exact ih _ (keys_nodup_dictInsert _ _ _ hm)

theorem countP_key_of_nodup (m : List (String × ℚ)) (h : (m.map Prod.fst).Nodup)
    (n : String) (hmem : n ∈ m.map Prod.fst) :
    m.countP (fun p => decide (p.1 = n)) = 1 := by
  induction m with
  | nil => simp at hmem
  | cons p m ih =>
      simp only [List.map_cons, List.nodup_cons] at h
      simp only [List.map_cons, List.mem_cons] at hmem
      rw [List.countP_cons]
      by_cases hpn : p.1 = n
      · have hz : m.countP (fun q => decide (q.1 = n)) = 0 := by
          rw [List.countP_eq_zero]
          intro q hq
          simp only [decide_eq_true_eq]
          intro hqn
          refine h.1 ?_
          rw [hpn]
          exact List.mem_map.mpr ⟨q, hq, hqn⟩
        rw [hz]
        simp [hpn]
      · rcases hmem with hnp | hmem
        · exact absurd hnp.symm hpn
        · rw [ih h.2 hmem]
          simp [hpn]

theorem lastRowWith_append_singleton (rows : List Row) (r : Row) (n : String) :
    lastRowWith (rows ++ [r]) n =
      if pyStrip r.course_name = n then some r else lastRowWith rows n := by
  unfold lastRowWith
  rw [List.reverse_append, List.reverse_singleton, List.singleton_append]
  by_cases hr : pyStrip r.course_name = n
  · rw [List.find?_cons_of_pos _ (by simp [hr]), if_pos hr]
  · rw [List.find?_cons_of_neg _ (by simp [hr]), if_neg hr]

theorem lookupW_compute_weights (rows : List Row) (today : ℤ) (n : String) :
    lookupW (compute_weights rows today) n =
      (lastRowWith rows n).map (fun r => compute_course_weight r today) := by
  induction rows using List.reverseRecOn with
  | nil => rfl
  | append_singleton rows r ih =>
      unfold compute_weights at ih ⊢
      rw [List.foldl_append, List.foldl_cons, List.foldl_nil, lookupW_dictInsert,
        lastRowWith_append_singleton]
      by_cases hr : pyStrip r.course_name = n
      · rw [if_pos hr.symm, if_pos hr, Option.map_some']
      · rw [if_neg (fun hh : n = pyStrip r.course_name => hr hh.symm), if_neg hr]
        exact ih

/-- C9: when two or more rows share a (stripped) course name, the
weights series has exactly one entry for that name, and its value is
the weight of the last such row in iteration order: later duplicates
silently overwrite earlier ones, no error, no merging. -/
theorem compute_weights_duplicate_last_wins (rows : List Row) (today : ℤ) (n : String)
    (r : Row)
    (hcount : 2 ≤ rows.countP (fun row => decide (pyStrip row.course_name = n)))
    (hlast : lastRowWith rows n = some r) :
    lookupW (compute_weights rows today) n = some (compute_course_weight r today) ∧
    (compute_weights rows today).countP (fun p => decide (p.1 = n)) = 1 := by
  have h1 := lookupW_compute_weights rows today n
  rw [hlast] at h1
  simp only [Option.map_some'] at h1
  refine ⟨h1, ?_⟩
  have hnd := compute_weights_keys_nodup rows today
  have hmem : n ∈ (compute_weights rows today).map Prod.fst := by
    unfold lookupW at h1
    rcases Option.map_eq_some'.mp h1 with ⟨a, ha, _⟩
    have hamem := List.mem_of_find?_eq_some ha
    have hpa := List.find?_some ha
    simp only [decide_eq_true_eq] at hpa
    exact List.mem_map.mpr ⟨a, hamem, hpa⟩
  exact countP_key_of_nodup _ hnd n hmem

/-- Witness for C9: two rows named "dup" with different credits; the
series holds one entry, carrying the second (last) row's weight. -/
theorem compute_weights_duplicate_last_wins_witness :
    2 ≤ List.countP (fun row => decide (pyStrip row.course_name = "dup"))
        [(⟨"dup", .num 1, .num 0, "", .missing⟩ : Row), ⟨"dup", .num 3, .num 0, "", .missing⟩] ∧
    lastRowWith [(⟨"dup", .num 1, .num 0, "", .missing⟩ : Row),
        ⟨"dup", .num 3, .num 0, "", .missing⟩] "dup" =
      some ⟨"dup", .num 3, .num 0, "", .missing⟩ ∧
    (lookupW (compute_weights [(⟨"dup", .num 1, .num 0, "", .missing⟩ : Row),
          ⟨"dup", .num 3, .num 0, "", .missing⟩] 0) "dup" =
        some (compute_course_weight ⟨"dup", .num 3, .num 0, "", .missing⟩ 0) ∧
      (compute_weights [(⟨"dup", .num 1, .num 0, "", .missing⟩ : Row),
          ⟨"dup", .num 3, .num 0, "", .missing⟩] 0).countP
          (fun p => decide (p.1 = "dup")) = 1) :=
  ⟨by decide, rfl,
    compute_weights_duplicate_last_wins _ 0 "dup" _ (by decide) rfl⟩

/-! ### C2: no infeasibility check in optimize_minutes -/

theorem pyRound_nonneg (q : ℚ) (h : 0 ≤ q) : 0 ≤ pyRound q := by
  unfold pyRound
  have hf : 0 ≤ ⌊q⌋ := Int.floor_nonneg.mpr h
  simp only
  split_ifs <;> omega

/-- C2 (divergence): on the spec's infeasible Scenario C input
(3 courses, `minPerCourse = 100`, `totalMinutes = 200`, so 300 > 200),
`optimize_minutes` still returns a full 3-row table of clamped
non-negative minutes for every possible solver readback — the source
never inspects the solver status and has no Infeasible error path at
all. -/
theorem optimize_minutes_infeasible_returns_rows (solver : String → ℚ) :
    (optimize_minutes scenarioCRows 200 100 none 30 0 solver).length = 3 ∧
    ∀ r ∈ optimize_minutes scenarioCRows 200 100 none 30 0 solver, 0 ≤ r.minutes := by
  have hp := List.mergeSort_perm (minutesTable scenarioCRows 200 100 none 30 0 solver)
    (fun a b => decide (b.score ≤ a.score))
  constructor
  · rw [optimize_minutes, hp.length_eq]
    unfold minutesTable
    rw [List.length_map]
    rfl
  · intro r hr
    rw [optimize_minutes] at hr
    have hmem := hp.mem_iff.mp hr
    unfold minutesTable at hmem
    rcases List.mem_map.mp hmem with ⟨cw, _, rfl⟩
    simp only
    split_ifs with h
    · have h1 : (0 : ℚ) ≤ max 0 (solver cw.1) / ((30 : ℤ) : ℚ) := by
        have h0 : (0 : ℚ) ≤ max 0 (solver cw.1) := le_max_left 0 _
        positivity
      have h2 := pyRound_nonneg _ h1
      have h3 : (0 : ℚ) ≤ (pyRound (max 0 (solver cw.1) / ((30 : ℤ) : ℚ)) : ℚ) := by
        exact_mod_cast h2
      have h4 : (0 : ℚ) ≤ ((30 : ℤ) : ℚ) := by norm_num
      exact mul_nonneg h3 h4
    · exact le_max_left 0 _

/-! ### C6: each block is assigned to at most one course -/

theorem countP_flatMap {α β : Type} (l : List α) (f : α → List β) (p : β → Bool) :
    (l.flatMap f).countP p = (l.map (fun a => (f a).countP p)).sum := by
  induction l with
  | nil => rfl
  | cons a l ih =>
      show ((f a ++ l.flatMap f).countP p) = _
      rw [List.countP_append, List.map_cons, List.sum_cons, ih]

theorem countP_filterMap_ite {α β : Type} (L : List α) (p : α → Bool) (g : α → β)
    (q : β → Bool) :
    (L.filterMap (fun b => if p b then some (g b) else none)).countP q
      = L.countP (fun b => p b && q (g b)) := by
  induction L with
  | nil => rfl
  | cons a L ih =>
      by_cases hp : p a
      · simp [List.filterMap_cons, hp, List.countP_cons, ih]
      · simp [List.filterMap_cons, hp, List.countP_cons, ih]

theorem sum_map_ite_eq_countP {α : Type} (l : List α) (p : α → Bool) :
    (l.map (fun a => if p a then 1 else 0)).sum = l.countP p := by
  induction l with
  | nil => rfl
  | cons a l ih =>
      rw [List.map_cons, List.sum_cons, List.countP_cons, ih]
      by_cases hp : p a <;> simp [hp, Nat.add_comm]

theorem countP_decide_eq_one {α : Type} [DecidableEq α] (l : List α) (a : α)
    (h : l.Nodup) (hm : a ∈ l) : l.countP (fun b => decide (b = a)) = 1 := by
  induction l with
  | nil => simp at hm
  | cons c l ih =>
      rw [List.nodup_cons] at h
      rw [List.countP_cons]
      rcases List.mem_cons.mp hm with rfl | hm'
      · have hz : l.countP (fun b => decide (b = a)) = 0 := by
          rw [List.countP_eq_zero]
          intro b hb
          simp only [decide_eq_true_eq]
          rintro rfl
          exact h.1 hb
        simp [hz]
      · have hca : ¬ c = a := by
          rintro rfl
          exact h.1 hm'
        rw [ih h.2 hm']
        simp [hca]

/-- C6: whenever the external solver readback satisfies the program's
own per-block constraint (`Σ_c x[c,b] ≤ 1`, which the source imposes
for every block index), the assignment `optimize_blocks` returns
mentions each block in at most one row — no block is given to two
courses. -/
theorem optimize_blocks_at_most_one_course_per_block
    (rows : List Row) (blocks : List ℤ) (minB : ℤ) (maxB : Option ℤ) (today : ℤ)
    (x : String → ℕ → Bool)
    (hnd : blocks.Nodup)
    (hfeas : ∀ b, b < blocks.length →
      ((compute_weights rows today).map Prod.fst).countP (fun c => x c b) ≤ 1) :
    ∀ i, (hi : i < blocks.length) →
      (optimize_blocks rows blocks minB maxB today x).countP
        (fun p => decide (p.1 = blocks[i])) ≤ 1 := by
  intro i hi
  have hperm := List.mergeSort_perm (blockTable rows blocks minB maxB today x)
    (fun p q => decide (p.1 < q.1 ∨ (p.1 = q.1 ∧ p.2 ≤ q.2)))
  rw [optimize_blocks, hperm.countP_eq]
  unfold blockTable
  rw [countP_flatMap]
  have hinner : ∀ c : String,
      ((List.range blocks.length).filterMap (fun b =>
        if x c b then some (blocks.getD b 0, c) else none)).countP
          (fun p => decide (p.1 = blocks[i]))
        = if x c i then 1 else 0 := by
    intro c
    rw [countP_filterMap_ite]
    have hcongr : ∀ b ∈ List.range blocks.length,
        (x c b && decide ((blocks.getD b 0, c).1 = blocks[i]))
          = (decide (b = i) && x c i) := by
      intro b hb
      have hb' : b < blocks.length := List.mem_range.mp hb
      rw [List.getD_eq_getElem blocks 0 hb']
      by_cases hbi : b = i
      · subst hbi
        simp
      · have hne : ¬ (blocks[b] = blocks[i]) := by
          rw [hnd.getElem_inj_iff]
          exact hbi
        simp [hne, hbi]
    rw [List.countP_congr (fun b hb => by rw [hcongr b hb])]
    by_cases hx : x c i
    · simp only [hx, Bool.and_true]
      rw [if_pos trivial]
      exact countP_decide_eq_one _ i (List.nodup_range _) (List.mem_range.mpr hi)
    · simp only [hx, Bool.and_false]
      simp
  rw [List.map_congr_left (fun c _ => hinner c), sum_map_ite_eq_countP]
  exact hfeas i hi

/-- Witness for C6: one course, two blocks (0 and 30), a feasible
readback assigning block 0 to the course — every block is mentioned at
most once. -/
theorem optimize_blocks_at_most_one_course_per_block_witness :
    ([(0 : ℤ), 30]).Nodup ∧
    (∀ b, b < ([(0 : ℤ), 30]).length →
      ((compute_weights blockDemoRows 0).map Prod.fst).countP
        (fun c => blockDemoX c b) ≤ 1) ∧
    ∀ i, (hi : i < ([(0 : ℤ), 30]).length) →
      (optimize_blocks blockDemoRows [0, 30] 0 none 0 blockDemoX).countP
        (fun p => decide (p.1 = ([(0 : ℤ), 30])[i])) ≤ 1 :=
  ⟨by decide, by decide,
    fun i hi => optimize_blocks_at_most_one_course_per_block blockDemoRows [0, 30] 0 none 0
      blockDemoX (by decide) (by decide) i hi⟩

/-! ### C5: result rows, score product, and ordering -/

/-- C5 (amended): every result of `optimize_minutes` exposes per-course
minutes, weight and `score = minutes × weight`, and the rows come out
ordered by score descending; the row set is exactly the per-course
table (one row per weights entry). Ties keep the stable sort's input
order — the course name is not a sort key (see the counterexample
below), and determinism for identical inputs is immediate since the
computation is a pure function of them. -/
theorem optimize_minutes_rows_sorted (rows : List Row) (total minPer : ℤ)
    (maxPer : Option ℤ) (roundTo today : ℤ) (solver : String → ℚ) :
    (∀ r ∈ optimize_minutes rows total minPer maxPer roundTo today solver,
      r.score = r.minutes * r.weight) ∧
    List.Pairwise (fun a b : OutRow => b.score ≤ a.score)
      (optimize_minutes rows total minPer maxPer roundTo today solver) ∧
    (optimize_minutes rows total minPer maxPer roundTo today solver).Perm
      (minutesTable rows total minPer maxPer roundTo today solver) := by
  have hperm := List.mergeSort_perm (minutesTable rows total minPer maxPer roundTo today solver)
    (fun a b => decide (b.score ≤ a.score))
  refine ⟨?_, ?_, ?_⟩
  · intro r hr
    rw [optimize_minutes] at hr
    have hmem := hperm.mem_iff.mp hr
    unfold minutesTable at hmem
    rcases List.mem_map.mp hmem with ⟨cw, _, rfl⟩
    rfl
  · rw [optimize_minutes]
    have hs := @List.sorted_mergeSort OutRow
      (fun a b : OutRow => decide (b.score ≤ a.score))
      (fun a b c hab hbc => by
        simp only [decide_eq_true_eq] at *
        exact le_trans hbc hab)
      (fun a b => by
        simp only [Bool.or_eq_true, decide_eq_true_eq]
        exact le_total b.score a.score)
      (minutesTable rows total minPer maxPer roundTo today solver)
    exact hs.imp (fun h => by simpa using h)
  · rw [optimize_minutes]
    exact hperm

/-- C5 (counterexample): course "Z" has weight 2, courses "B" then "A"
both weight 1; the LP budget is 180 with zero minimum, and the unique
optimum gives everything to "Z", so "B" and "A" tie at score 0. The
returned order is Z, B, A — the name tie-break claimed by the spec
would require A before B, so the claimed ordering predicate is false
on this run. -/
theorem optimize_minutes_name_tiebreak_fails :
    tieSolver "Z" + tieSolver "B" + tieSolver "A" = 180 ∧
    (optimize_minutes tieRows 180 0 none 30 0 tieSolver).map OutRow.name = ["Z", "B", "A"] ∧
    ¬ scoreNameOrdered (optimize_minutes tieRows 180 0 none 30 0 tieSolver) := by
  have htab : minutesTable tieRows 180 0 none 30 0 tieSolver =
      [⟨"Z", 180, 2, 360⟩, ⟨"B", 0, 1, 0⟩, ⟨"A", 0, 1, 0⟩] := by
    norm_num +decide [minutesTable, compute_weights, dictInsert, compute_course_weight,
      NumField.toQ, catCoef, pyStrip, near_exam_of, safe_parse_date, BETA_DIFFICULTY,
      tieRows, tieSolver, List.foldl, pyRound, max_def]
  have hsorted : List.Pairwise (fun a b : OutRow => (decide (b.score ≤ a.score)) = true)
      [⟨"Z", 180, 2, 360⟩, ⟨"B", 0, 1, 0⟩, ⟨"A", 0, 1, 0⟩] := by
    norm_num [List.pairwise_cons]
  have hout : optimize_minutes tieRows 180 0 none 30 0 tieSolver =
      [⟨"Z", 180, 2, 360⟩, ⟨"B", 0, 1, 0⟩, ⟨"A", 0, 1, 0⟩] := by
    rw [optimize_minutes, htab, List.mergeSort_of_sorted hsorted]
  refine ⟨by norm_num +decide [tieSolver], by rw [hout]; rfl, ?_⟩
  rw [scoreNameOrdered, hout]
  intro hchain
  have h2 := (List.chain'_cons.mp (List.chain'_cons.mp hchain).2).1
  rcases h2 with h2 | h2
  · revert h2
    norm_num
  · have hle := h2.2
    rw [String.le_iff_toList_le] at hle
    revert hle
    decide

end StudyOpt
